import Mathlib

/-!
Shallow embedding of the batch index-refactoring job
(`batch-index-refactor.py`) of the neo4j-index-refactoring repository.

The store is modelled as a list of Country keys (the uniqueness constraint
of `set-indexes.py` guarantees at most one Country node per `countryName`,
so a key list read as a set is faithful) together with a list of
Organization child nodes.  Each child carries its `country` attribute and
the list of `countryName` keys it holds a `HAS_LOCATION` edge to.

The two Cypher statements of the job are embedded as pure functions:

* `childProps1` — `MATCH (n:Organization) WHERE NOT ((n)-[:HAS_LOCATION]-())
  RETURN n.country AS pname, count(n) AS ncount`.
* `indexRefactor1` — `MATCH (c:Country `{`countryName:`{`pname`}}`),
  (n:Organization `{`country:`{`pname`}}`) WHERE NOT ((n)-[:HAS_LOCATION]-())
  WITH c,n LIMIT `{`limit`}` MERGE (c)<-[r:HAS_LOCATION]-(n)`.
  Cypher picks an arbitrary subset of at most `limit` matching rows; the
  embedding deterministically picks the first ones in list order, a
  refinement that none of the verified properties depend on.

The driver loop of the script (`while True: ... if btotal < ncount ...`)
is embedded as `batchLoop`, a fuel-indexed recursion where `none` denotes
non-termination of the while loop; every theorem below supplies enough
fuel.  `runCategories` is the `for property in propertyList:` loop and
`runJob` the whole happy path of the script.  The failure variants
(`batchLoopF`, `runCategoriesF`, `runJobF`) model a CypherError raised by
`session.run` at a given (category index, batch index): the exception
propagates out of the single `try` that wraps the whole category loop, and
the handler does not roll back for a CypherError, so the store returned in
the `Except.error` case is exactly the committed state.
-/

/-- An `Organization` node: its `country` attribute and the list of
`countryName` keys of the Country nodes it has a `HAS_LOCATION` edge to. -/
structure Child where
  country : String
  hasLoc : List String
deriving DecidableEq, Repr

/-- The graph store: the `countryName` keys of the Country nodes and the
Organization children. -/
structure Store where
  countries : List String
  children : List Child
deriving DecidableEq, Repr

/-- A child with no `HAS_LOCATION` edge in either direction, i.e. one that
satisfies `WHERE NOT ((n)-[:HAS_LOCATION]-())`. -/
def unlinked (c : Child) : Bool :=
  c.hasLoc.isEmpty

/-- Number of unlinked children with the given `country` attribute in a
list of children. -/
def cUnlinked (pname : String) (cs : List Child) : Nat :=
  (cs.filter fun c => unlinked c && c.country == pname).length

/-- Number of unlinked children of a category in the store. -/
def unlinkedCount (s : Store) (pname : String) : Nat :=
  cUnlinked pname s.children

/-- Number of `HAS_LOCATION` edges incident to the Country node keyed
`pname` (each edge is recorded on its child endpoint). -/
def edgeCount (s : Store) (pname : String) : Nat :=
  (s.children.filter fun c => c.hasLoc.contains pname).length

/-- The query `childProps1`: for every category value that has at least one
unlinked child, the pair of the value and its unlinked-child count
(`RETURN n.country AS pname, count(n) AS ncount` grouped by `pname`). -/
def childProps1 (s : Store) : List (String × Nat) :=
  (((s.children.filter fun c => unlinked c).map fun c => c.country).dedup).map
    fun p => (p, unlinkedCount s p)

/-- The row pipeline of `indexRefactor1` on the child list: take the first
`limit` unlinked children whose `country` equals `pname` and MERGE the
`HAS_LOCATION` edge to the Country node keyed `pname` for each (the edge is
absent because the child matched as unlinked, so each MERGE creates).
Returns the new child list and the number of edges created. -/
def linkChildren (pname : String) : List Child → Nat → List Child × Nat
  | [], _ => ([], 0)
  | c :: cs, limit =>
    if 0 < limit ∧ unlinked c = true ∧ c.country = pname then
      let r := linkChildren pname cs (limit - 1)
      (Child.mk c.country [pname] :: r.1, r.2 + 1)
    else
      let r := linkChildren pname cs limit
      (c :: r.1, r.2)

/-- One bounded mutation (`indexRefactor1`): if the Country node keyed
`pname` exists the batch links up to `limit` unlinked children of that
category; otherwise the `MATCH` yields no row and nothing happens.
Returns the new store and the `relationships_created` counter. -/
def indexRefactor1 (s : Store) (pname : String) (limit : Nat) : Store × Nat :=
  if s.countries.contains pname then
    let r := linkChildren pname s.children limit
    (Store.mk s.countries r.1, r.2)
  else (s, 0)

/-- The `while True:` loop of the script for one category, with fuel.
Each iteration runs one bounded mutation, adds `batchSize` (not the actual
created count) to the running total `btotal`, and breaks as soon as
`btotal < ncount` fails.  Returns the final store and the list of
per-batch created-edge counters (which the script prints but never reads);
`none` models a non-terminating loop (only possible with zero fuel). -/
def batchLoop (pname : String) (ncount batchSize : Nat) :
    Nat → Store → Nat → Option (Store × List Nat)
  | 0, _, _ => none
  | fuel + 1, s, btotal =>
    let r := indexRefactor1 s pname batchSize
    let btotal2 := btotal + batchSize
    if btotal2 < ncount then
      match batchLoop pname ncount batchSize fuel r.1 btotal2 with
      | some p => some (p.1, r.2 :: p.2)
      | none => none
    else
      some (r.1, [r.2])

/-- One iteration of the `for property in propertyList:` loop: run the
batch loop for the category with the snapshot count, starting from
`btotal = 0`.  Fuel `ncount + 1` is enough for every positive batch size. -/
def runCategory (s : Store) (pname : String) (ncount batchSize : Nat) :
    Option (Store × List Nat) :=
  batchLoop pname ncount batchSize (ncount + 1) s 0

/-- The `for` loop over the rows of `childProps1`, also accumulating the
total number of `session.run(indexRefactor1, ...)` invocations. -/
def runCategories (batchSize : Nat) : List (String × Nat) → Store → Option (Store × Nat)
  | [], s => some (s, 0)
  | pr :: rest, s =>
    match runCategory s pr.1 pr.2 batchSize with
    | some r =>
      match runCategories batchSize rest r.1 with
      | some r2 => some (r2.1, r.2.length + r2.2)
      | none => none
    | none => none

/-- The whole job on its happy path: query `childProps1`, then drive every
returned category to completion.  Returns the final store and the total
number of bounded-mutation invocations. -/
def runJob (s : Store) (batchSize : Nat) : Option (Store × Nat) :=
  runCategories batchSize (childProps1 s) s

/-- The store carried by either side of an `Except Store Store`. -/
def storeOfE (r : Except Store Store) : Store :=
  match r with
  | Except.ok s => s
  | Except.error s => s

/-- The batch loop under a failure schedule: `fail i = true` means the
`session.run` of batch `i` of this category raises a CypherError before
committing anything.  The exception aborts the loop; per the script the
handler does not roll back for a CypherError, so the committed store is
returned unchanged in the `Except.error` case. -/
def batchLoopF (fail : Nat → Bool) (pname : String) (ncount batchSize : Nat) :
    Nat → Store → Nat → Nat → Option (Except Store Store)
  | 0, _, _, _ => none
  | fuel + 1, s, btotal, i =>
    if fail i then
      some (Except.error s)
    else
      let r := indexRefactor1 s pname batchSize
      let btotal2 := btotal + batchSize
      if btotal2 < ncount then batchLoopF fail pname ncount batchSize fuel r.1 btotal2 (i + 1)
      else some (Except.ok r.1)

/-- The category loop under a failure schedule `fail : category index →
batch index → Bool`.  The single `try` of the script wraps the whole
`for` loop, so an `Except.error` from any category ends the entire job. -/
def runCategoriesF (fail : Nat → Nat → Bool) (batchSize : Nat) :
    List (String × Nat) → Store → Nat → Option (Except Store Store)
  | [], s, _ => some (Except.ok s)
  | pr :: rest, s, ci =>
    match batchLoopF (fail ci) pr.1 pr.2 batchSize (pr.2 + 1) s 0 0 with
    | some (Except.ok s2) => runCategoriesF fail batchSize rest s2 (ci + 1)
    | some (Except.error s2) => some (Except.error s2)
    | none => none

/-- The whole job under a failure schedule. -/
def runJobF (fail : Nat → Nat → Bool) (s : Store) (batchSize : Nat) :
    Option (Except Store Store) :=
  runCategoriesF fail batchSize (childProps1 s) s 0

/-- The graph invariant: every child holds at most one `HAS_LOCATION`
edge. -/
def AtMostOne (s : Store) : Prop :=
  ∀ c ∈ s.children, c.hasLoc.length ≤ 1

instance : DecidablePred AtMostOne := fun s =>
  show Decidable (∀ c ∈ s.children, c.hasLoc.length ≤ 1) from inferInstance

/-- Concrete category values used in witnesses and counterexamples. -/
def france : String := "France"

def japan : String := "Japan"

/-- Number of iterations the while loop performs when entered with running
total `btotal`: the least `k ≥ 1` with `btotal + k * batchSize ≥ ncount`,
in closed form. -/
def expectedBatches (ncount batchSize btotal : Nat) : Nat :=
  max 1 ((ncount - btotal + batchSize - 1) / batchSize)

lemma expectedBatches_base {ncount B btotal : Nat} (hB : 0 < B)
    (h : ¬ btotal + B < ncount) : expectedBatches ncount B btotal = 1 := by
  unfold expectedBatches
  have hle : ncount - btotal ≤ B := by omega
  have hq : (ncount - btotal + B - 1) / B ≤ 1 := by
    have hlt : ncount - btotal + B - 1 < 2 * B := by omega
    have := (Nat.div_lt_iff_lt_mul hB).mpr (by omega : ncount - btotal + B - 1 < 2 * B)
    omega
  omega

lemma expectedBatches_step {ncount B btotal : Nat} (hB : 0 < B)
    (h : btotal + B < ncount) :
    expectedBatches ncount B btotal = expectedBatches ncount B (btotal + B) + 1 := by
  unfold expectedBatches
  have hd : B < ncount - btotal := by omega
  have h1 : ncount - btotal + B - 1 = (ncount - (btotal + B) + B - 1) + B := by omega
  rw [h1, Nat.add_div_right _ hB]
  have hq : 1 ≤ (ncount - (btotal + B) + B - 1) / B := by
    have : B ≤ ncount - (btotal + B) + B - 1 := by omega
    exact (Nat.one_le_div_iff hB).mpr this
  omega

lemma expectedBatches_le {ncount B btotal : Nat} (hB : 0 < B) :
    expectedBatches ncount B btotal ≤ ncount + 1 := by
  unfold expectedBatches
  have hq : (ncount - btotal + B - 1) / B ≤ ncount := by
    have hmul : (ncount + 1) * B = ncount * B + B := by ring
    have hnb : ncount ≤ ncount * B := Nat.le_mul_of_pos_right ncount hB
    have hlt : ncount - btotal + B - 1 < (ncount + 1) * B := by
      rw [hmul]; omega
    have := (Nat.div_lt_iff_lt_mul hB).mpr hlt
    omega
  omega

/-- The while loop terminates with exactly `expectedBatches` iterations,
for any store contents whatsoever: the loop control reads only `btotal`,
`ncount` and `batchSize`. -/
lemma batchLoop_length {B : Nat} (pname : String) (ncount : Nat) (hB : 0 < B) :
    ∀ fuel btotal s, expectedBatches ncount B btotal ≤ fuel →
      ∃ s2 tr, batchLoop pname ncount B fuel s btotal = some (s2, tr) ∧
        tr.length = expectedBatches ncount B btotal := by
  intro fuel
  induction fuel with
  | zero =>
    intro btotal s hfuel
    exact absurd hfuel (by unfold expectedBatches; omega)
  | succ n ih =>
    intro btotal s hfuel
    by_cases h : btotal + B < ncount
    · have hstep := expectedBatches_step hB h
      obtain ⟨s2, tr, heq, hlen⟩ := ih (btotal + B) (indexRefactor1 s pname B).1
        (by omega)
      refine ⟨s2, (indexRefactor1 s pname B).2 :: tr, ?_, ?_⟩
      · simp only [batchLoop, if_pos h, heq]
      · simp [hlen, hstep]
    · refine ⟨(indexRefactor1 s pname B).1, [(indexRefactor1 s pname B).2], ?_, ?_⟩
      · simp only [batchLoop, if_neg h]
      · simp [expectedBatches_base hB h]

/-- `runCategory` always terminates (fuel `ncount + 1` suffices) with
exactly `expectedBatches ncount batchSize 0` invocations, independently of
the store. -/
lemma runCategory_length {B : Nat} (s : Store) (pname : String) (ncount : Nat)
    (hB : 0 < B) :
    ∃ s2 tr, runCategory s pname ncount B = some (s2, tr) ∧
      tr.length = expectedBatches ncount B 0 := by
  exact batchLoop_length pname ncount hB (ncount + 1) 0 s (expectedBatches_le hB)

lemma expectedBatches_zero_btotal {ncount B : Nat} (hn : 0 < ncount) (hB : 0 < B) :
    expectedBatches ncount B 0 = (ncount + B - 1) / B := by
  unfold expectedBatches
  rw [Nat.sub_zero]
  have h1 : 1 ≤ (ncount + B - 1) / B := (Nat.one_le_div_iff hB).mpr (by omega)
  omega

/-- What one bounded mutation for category `pname` may do to a single
child: the category attribute is untouched, a child that already holds an
edge is untouched, a child of another category is untouched, and the only
possible change is giving an unlinked child of category `pname` the single
edge to its Country node. -/
def BatchRel (pname : String) (c1 c2 : Child) : Prop :=
  c2.country = c1.country ∧
  (c1.hasLoc ≠ [] → c2 = c1) ∧
  (c1.country ≠ pname → c2 = c1) ∧
  (c2 = c1 ∨ (c1.hasLoc = [] ∧ c1.country = pname ∧ c2.hasLoc = [pname]))

lemma batchRel_refl (pname : String) (c : Child) : BatchRel pname c c :=
  ⟨rfl, fun _ => rfl, fun _ => rfl, Or.inl rfl⟩

lemma batchRel_trans {pname : String} {c1 c2 c3 : Child}
    (h12 : BatchRel pname c1 c2) (h23 : BatchRel pname c2 c3) :
    BatchRel pname c1 c3 := by
  obtain ⟨hc12, he12, ho12, hd12⟩ := h12
  obtain ⟨hc23, he23, ho23, hd23⟩ := h23
  refine ⟨hc23.trans hc12, ?_, ?_, ?_⟩
  · intro h1
    have h2 := he12 h1
    have h3 : c2.hasLoc ≠ [] := by rw [h2]; exact h1
    rw [he23 h3, h2]
  · intro h1
    have h2 := ho12 h1
    have h3 : c2.country ≠ pname := by rw [h2]; exact h1
    rw [ho23 h3, h2]
  · rcases hd12 with h2 | ⟨hl1, hp1, hl2⟩
    · rw [h2] at hd23
      exact hd23
    · rcases hd23 with h3 | ⟨_, _, hl3⟩
      · rw [h3]
        exact Or.inr ⟨hl1, hp1, hl2⟩
      · exact Or.inr ⟨hl1, hp1, hl3⟩

lemma forall2Refl {α : Type} {R : α → α → Prop} (h : ∀ c, R c c) :
    ∀ l : List α, List.Forall₂ R l l := by
  intro l
  induction l with
  | nil => exact List.Forall₂.nil
  | cons c rest ih => exact List.Forall₂.cons (h c) ih

lemma forall2Trans {α : Type} (R : α → α → Prop)
    (htr : ∀ a b c, R a b → R b c → R a c) :
    ∀ {l1 l2 l3 : List α}, List.Forall₂ R l1 l2 → List.Forall₂ R l2 l3 →
      List.Forall₂ R l1 l3 := by
  intro l1 l2 l3 h12
  induction h12 generalizing l3 with
  | nil =>
    intro h23
    cases h23
    exact List.Forall₂.nil
  | cons hab hrest ih =>
    intro h23
    cases h23 with
    | cons hbc hrest2 => exact List.Forall₂.cons (htr _ _ _ hab hbc) (ih hrest2)

/-- The store-level batch relation: children are related pointwise and the
Country nodes are unchanged. -/
def StoreRel (pname : String) (s1 s2 : Store) : Prop :=
  s2.countries = s1.countries ∧
  List.Forall₂ (BatchRel pname) s1.children s2.children

lemma storeRel_refl (pname : String) (s : Store) : StoreRel pname s s :=
  ⟨rfl, forall2Refl (batchRel_refl pname) s.children⟩

lemma storeRel_trans {pname : String} {s1 s2 s3 : Store}
    (h12 : StoreRel pname s1 s2) (h23 : StoreRel pname s2 s3) :
    StoreRel pname s1 s3 := by
  refine ⟨h23.1.trans h12.1, ?_⟩
  exact forall2Trans (BatchRel pname) (fun _ _ _ h1 h2 => batchRel_trans h1 h2) h12.2 h23.2

lemma linkChildren_rel (pname : String) :
    ∀ (cs : List Child) (limit : Nat),
      List.Forall₂ (BatchRel pname) cs (linkChildren pname cs limit).1 := by
  intro cs
  induction cs with
  | nil =>
    intro limit
    exact List.Forall₂.nil
  | cons c rest ih =>
    intro limit
    by_cases h : 0 < limit ∧ unlinked c = true ∧ c.country = pname
    · simp only [linkChildren, if_pos h]
      refine List.Forall₂.cons ?_ (ih (limit - 1))
      have hl : c.hasLoc = [] := by
        have h2 := h.2.1
        simpa [unlinked, List.isEmpty_iff] using h2
      exact ⟨rfl, fun hne => absurd hl hne, fun hne => absurd h.2.2 hne,
        Or.inr ⟨hl, h.2.2, rfl⟩⟩
    · simp only [linkChildren, if_neg h]
      exact List.Forall₂.cons (batchRel_refl pname c) (ih limit)

lemma indexRefactor1_rel (s : Store) (pname : String) (limit : Nat) :
    StoreRel pname s (indexRefactor1 s pname limit).1 := by
  unfold indexRefactor1
  by_cases h : s.countries.contains pname
  · simp only [if_pos h]
    exact ⟨rfl, linkChildren_rel pname s.children limit⟩
  · simp only [if_neg h]
    exact storeRel_refl pname s

lemma batchLoop_rel (pname : String) (ncount B : Nat) :
    ∀ fuel btotal s s2 tr,
      batchLoop pname ncount B fuel s btotal = some (s2, tr) →
      StoreRel pname s s2 := by
  intro fuel
  induction fuel with
  | zero => intro btotal s s2 tr h; simp [batchLoop] at h
  | succ n ih =>
    intro btotal s s2 tr h
    simp only [batchLoop] at h
    by_cases hlt : btotal + B < ncount
    · rw [if_pos hlt] at h
      cases heq : batchLoop pname ncount B n (indexRefactor1 s pname B).1 (btotal + B) with
      | none => rw [heq] at h; simp at h
      | some p =>
        rw [heq] at h
        simp only [Option.some.injEq, Prod.mk.injEq] at h
        have hrest := ih (btotal + B) (indexRefactor1 s pname B).1 p.1 p.2 heq
        rw [h.1] at hrest
        exact storeRel_trans (indexRefactor1_rel s pname B) hrest
    · rw [if_neg hlt] at h
      simp only [Option.some.injEq, Prod.mk.injEq] at h
      rw [← h.1]
      exact indexRefactor1_rel s pname B


/-- What a whole job run (over any sequence of categories) may do to a
single child: category attribute untouched, an already linked child
untouched, and the only possible change is giving an unlinked child the
single edge to the Country node of its own category value. -/
def JobRel (c1 c2 : Child) : Prop :=
  c2.country = c1.country ∧
  (c1.hasLoc ≠ [] → c2 = c1) ∧
  (c2 = c1 ∨ (c1.hasLoc = [] ∧ c2.hasLoc = [c1.country]))

lemma jobRel_refl (c : Child) : JobRel c c :=
  ⟨rfl, fun _ => rfl, Or.inl rfl⟩

lemma jobRel_trans {c1 c2 c3 : Child} (h12 : JobRel c1 c2) (h23 : JobRel c2 c3) :
    JobRel c1 c3 := by
  obtain ⟨hc12, he12, hd12⟩ := h12
  obtain ⟨hc23, he23, hd23⟩ := h23
  refine ⟨hc23.trans hc12, ?_, ?_⟩
  · intro h1
    have h2 := he12 h1
    have h3 : c2.hasLoc ≠ [] := by rw [h2]; exact h1
    rw [he23 h3, h2]
  · rcases hd12 with h2 | ⟨hl1, hl2⟩
    · rw [h2] at hd23
      exact hd23
    · have h3 : c2.hasLoc ≠ [] := by rw [hl2]; simp
      rw [he23 h3]
      exact Or.inr ⟨hl1, hl2⟩

lemma BatchRel.toJobRel {pname : String} {c1 c2 : Child}
    (h : BatchRel pname c1 c2) : JobRel c1 c2 := by
  obtain ⟨hc, he, _, hd⟩ := h
  refine ⟨hc, he, ?_⟩
  rcases hd with h2 | ⟨hl1, hp, hl2⟩
  · exact Or.inl h2
  · exact Or.inr ⟨hl1, by rw [hl2, hp]⟩

/-- The store-level job relation. -/
def JobStoreRel (s1 s2 : Store) : Prop :=
  s2.countries = s1.countries ∧
  List.Forall₂ JobRel s1.children s2.children

lemma jobStoreRel_refl (s : Store) : JobStoreRel s s :=
  ⟨rfl, forall2Refl jobRel_refl s.children⟩

lemma jobStoreRel_trans {s1 s2 s3 : Store}
    (h12 : JobStoreRel s1 s2) (h23 : JobStoreRel s2 s3) : JobStoreRel s1 s3 := by
  refine ⟨h23.1.trans h12.1, ?_⟩
  exact forall2Trans JobRel (fun _ _ _ h1 h2 => jobRel_trans h1 h2) h12.2 h23.2

lemma StoreRel.toJobStoreRel {pname : String} {s1 s2 : Store}
    (h : StoreRel pname s1 s2) : JobStoreRel s1 s2 :=
  ⟨h.1, h.2.imp (fun _ _ hr => hr.toJobRel)⟩

lemma runCategory_rel {s : Store} {pname : String} {ncount B : Nat}
    {s2 : Store} {tr : List Nat} (h : runCategory s pname ncount B = some (s2, tr)) :
    StoreRel pname s s2 :=
  batchLoop_rel pname ncount B (ncount + 1) 0 s s2 tr h

lemma runCategories_rel {B : Nat} :
    ∀ (props : List (String × Nat)) (s s2 : Store) (k : Nat),
      runCategories B props s = some (s2, k) → JobStoreRel s s2 := by
  intro props
  induction props with
  | nil =>
    intro s s2 k h
    simp only [runCategories, Option.some.injEq, Prod.mk.injEq] at h
    rw [← h.1]
    exact jobStoreRel_refl s
  | cons pr rest ih =>
    intro s s2 k h
    simp only [runCategories] at h
    cases heq : runCategory s pr.1 pr.2 B with
    | none => rw [heq] at h; simp at h
    | some r =>
      rw [heq] at h
      dsimp only at h
      cases heq2 : runCategories B rest r.1 with
      | none => rw [heq2] at h; simp at h
      | some r2 =>
        rw [heq2] at h
        simp only [Option.some.injEq, Prod.mk.injEq] at h
        have hr1 : runCategory s pr.1 pr.2 B = some (r.1, r.2) := by rw [heq]
        have h1 := (runCategory_rel hr1).toJobStoreRel
        have h2 := ih r.1 r2.1 r2.2 (by rw [heq2])
        rw [h.1] at h2
        exact jobStoreRel_trans h1 h2

lemma runJob_rel {s : Store} {B : Nat} {s2 : Store} {k : Nat}
    (h : runJob s B = some (s2, k)) : JobStoreRel s s2 :=
  runCategories_rel (childProps1 s) s s2 k h

lemma batchLoopF_rel (fail : Nat → Bool) (pname : String) (ncount B : Nat) :
    ∀ fuel btotal i s r,
      batchLoopF fail pname ncount B fuel s btotal i = some r →
      StoreRel pname s (storeOfE r) := by
  intro fuel
  induction fuel with
  | zero => intro btotal i s r h; simp [batchLoopF] at h
  | succ n ih =>
    intro btotal i s r h
    simp only [batchLoopF] at h
    by_cases hf : fail i
    · rw [if_pos hf] at h
      simp only [Option.some.injEq] at h
      rw [← h]
      exact storeRel_refl pname s
    · rw [if_neg hf] at h
      by_cases hlt : btotal + B < ncount
      · rw [if_pos hlt] at h
        have hrest := ih (btotal + B) (i + 1) (indexRefactor1 s pname B).1 r h
        exact storeRel_trans (indexRefactor1_rel s pname B) hrest
      · rw [if_neg hlt] at h
        simp only [Option.some.injEq] at h
        rw [← h]
        exact indexRefactor1_rel s pname B

lemma runCategoriesF_rel (fail : Nat → Nat → Bool) (B : Nat) :
    ∀ (props : List (String × Nat)) (s : Store) (ci : Nat) (r : Except Store Store),
      runCategoriesF fail B props s ci = some r → JobStoreRel s (storeOfE r) := by
  intro props
  induction props with
  | nil =>
    intro s ci r h
    simp only [runCategoriesF, Option.some.injEq] at h
    rw [← h]
    exact jobStoreRel_refl s
  | cons pr rest ih =>
    intro s ci r h
    simp only [runCategoriesF] at h
    cases heq : batchLoopF (fail ci) pr.1 pr.2 B (pr.2 + 1) s 0 0 with
    | none => rw [heq] at h; simp at h
    | some r1 =>
      rw [heq] at h
      have h1 := (batchLoopF_rel (fail ci) pr.1 pr.2 B (pr.2 + 1) 0 0 s r1 heq).toJobStoreRel
      cases r1 with
      | ok s1 =>
        simp only at h
        have h2 := ih s1 (ci + 1) r h
        exact jobStoreRel_trans h1 h2
      | error s1 =>
        simp only [Option.some.injEq] at h
        rw [← h]
        exact h1

lemma runJobF_rel {fail : Nat → Nat → Bool} {s : Store} {B : Nat}
    {r : Except Store Store} (h : runJobF fail s B = some r) :
    JobStoreRel s (storeOfE r) :=
  runCategoriesF_rel fail B (childProps1 s) s 0 r h

lemma forall2MemRight {α : Type} {R : α → α → Prop} :
    ∀ {l1 l2 : List α}, List.Forall₂ R l1 l2 → ∀ c2 ∈ l2, ∃ c1 ∈ l1, R c1 c2 := by
  intro l1 l2 h
  induction h with
  | nil => intro c2 h2; simp at h2
  | cons hab hrest ih =>
    intro c2 h2
    rcases List.mem_cons.mp h2 with h3 | h3
    · exact ⟨_, List.mem_cons_self _ _, h3 ▸ hab⟩
    · obtain ⟨c1, hm, hr⟩ := ih c2 h3
      exact ⟨c1, List.mem_cons_of_mem _ hm, hr⟩

/-- The global at-most-one-edge invariant is preserved along `JobStoreRel`. -/
lemma JobStoreRel.atMostOne {s1 s2 : Store} (h : JobStoreRel s1 s2)
    (h1 : AtMostOne s1) : AtMostOne s2 := by
  intro c2 hc2
  obtain ⟨c1, hm, hr⟩ := forall2MemRight h.2 c2 hc2
  rcases hr.2.2 with he | ⟨_, he⟩
  · rw [he]
    exact h1 c1 hm
  · rw [he]
    exact Nat.le_refl 1


lemma condFalse {limit : Nat} {c : Child} {pname : String}
    (h : ¬(0 < limit ∧ unlinked c = true ∧ c.country = pname)) (hl : 0 < limit) :
    (unlinked c && c.country == pname) = false := by
  by_cases hu : unlinked c = true
  · have hc : c.country ≠ pname := fun hc => h ⟨hl, hu, hc⟩
    simp [hu, hc]
  · simp only [Bool.not_eq_true] at hu
    simp [hu]

lemma cUnlinked_cons (pname : String) (c : Child) (cs : List Child) :
    cUnlinked pname (c :: cs) =
      (if unlinked c && c.country == pname then 1 else 0) + cUnlinked pname cs := by
  unfold cUnlinked
  simp only [List.filter_cons]
  by_cases h : (unlinked c && c.country == pname) = true
  · rw [if_pos h, if_pos h, List.length_cons]
    omega
  · rw [if_neg h, if_neg h]
    omega

lemma linkChildren_created (pname : String) :
    ∀ (cs : List Child) (limit : Nat),
      (linkChildren pname cs limit).2 = min limit (cUnlinked pname cs) := by
  intro cs
  induction cs with
  | nil =>
    intro limit
    simp [linkChildren, cUnlinked]
  | cons c rest ih =>
    intro limit
    rw [cUnlinked_cons]
    by_cases h : 0 < limit ∧ unlinked c = true ∧ c.country = pname
    · have hb : (unlinked c && c.country == pname) = true := by
        simp only [Bool.and_eq_true, beq_iff_eq]
        exact ⟨h.2.1, h.2.2⟩
      simp only [linkChildren, if_pos h]
      rw [ih (limit - 1), if_pos hb]
      have hl := h.1
      omega
    · simp only [linkChildren, if_neg h]
      rw [ih limit]
      by_cases hl : 0 < limit
      · have hb : ¬((unlinked c && c.country == pname) = true) := by
          simp [condFalse h hl]
        rw [if_neg hb]
        omega
      · have h0 : limit = 0 := by omega
        subst h0
        simp

lemma linkChildren_remaining (pname : String) :
    ∀ (cs : List Child) (limit : Nat),
      cUnlinked pname (linkChildren pname cs limit).1 =
        cUnlinked pname cs - limit := by
  intro cs
  induction cs with
  | nil =>
    intro limit
    simp [linkChildren, cUnlinked]
  | cons c rest ih =>
    intro limit
    rw [cUnlinked_cons]
    by_cases h : 0 < limit ∧ unlinked c = true ∧ c.country = pname
    · have hb : (unlinked c && c.country == pname) = true := by
        simp only [Bool.and_eq_true, beq_iff_eq]
        exact ⟨h.2.1, h.2.2⟩
      simp only [linkChildren, if_pos h]
      rw [cUnlinked_cons]
      have hlinked : (unlinked (Child.mk c.country [pname]) &&
          (Child.mk c.country [pname]).country == pname) = false := by
        simp [unlinked]
      rw [hlinked, ih (limit - 1), if_pos hb]
      simp only [Bool.false_eq_true, if_false]
      have hl := h.1
      omega
    · simp only [linkChildren, if_neg h]
      rw [cUnlinked_cons, ih limit]
      by_cases hb : (unlinked c && c.country == pname) = true
      · have h0 : limit = 0 := by
          by_contra hl
          simp only [Bool.and_eq_true, beq_iff_eq] at hb
          exact h ⟨by omega, hb.1, hb.2⟩
        subst h0
        rw [if_pos hb]
        omega
      · rw [if_neg hb]
        omega

lemma cUnlinked_eq_of_forall2 {pname q : String} (hq : q ≠ pname) :
    ∀ {l1 l2 : List Child}, List.Forall₂ (BatchRel pname) l1 l2 →
      cUnlinked q l2 = cUnlinked q l1 := by
  intro l1 l2 h
  induction h with
  | nil => rfl
  | @cons a b la lb hab hrest ih =>
    rw [cUnlinked_cons, cUnlinked_cons, ih]
    by_cases hc : a.country = pname
    · have h1 : (a.country == q) = false := by
        simp only [beq_eq_false_iff_ne, ne_eq]
        rw [hc]
        exact fun he => hq he.symm
      have h2 : (b.country == q) = false := by
        rw [hab.1]
        exact h1
      simp [h1, h2]
    · rw [hab.2.2.1 hc]

lemma indexRefactor1_counts {s : Store} {pname : String} {B : Nat}
    (hc : s.countries.contains pname = true) :
    (indexRefactor1 s pname B).2 = min B (unlinkedCount s pname) ∧
    unlinkedCount (indexRefactor1 s pname B).1 pname = unlinkedCount s pname - B := by
  unfold indexRefactor1
  rw [if_pos hc]
  dsimp only
  unfold unlinkedCount
  exact ⟨linkChildren_created pname s.children B, linkChildren_remaining pname s.children B⟩

lemma indexRefactor1_countries (s : Store) (pname : String) (B : Nat) :
    (indexRefactor1 s pname B).1.countries = s.countries :=
  (indexRefactor1_rel s pname B).1

/-- Exact created-edge counters and remaining unlinked count through the
while loop, when the Country node of the category exists. -/
lemma batchLoop_counts (pname : String) (ncount B : Nat) :
    ∀ fuel btotal s s2 tr,
      s.countries.contains pname = true →
      batchLoop pname ncount B fuel s btotal = some (s2, tr) →
      unlinkedCount s2 pname = unlinkedCount s pname - tr.length * B ∧
      ∀ i, i < tr.length → tr.getD i 0 = min B (unlinkedCount s pname - i * B) := by
  intro fuel
  induction fuel with
  | zero => intro btotal s s2 tr hc h; simp [batchLoop] at h
  | succ n ih =>
    intro btotal s s2 tr hc h
    simp only [batchLoop] at h
    by_cases hlt : btotal + B < ncount
    · rw [if_pos hlt] at h
      cases heq : batchLoop pname ncount B n (indexRefactor1 s pname B).1 (btotal + B) with
      | none => rw [heq] at h; simp at h
      | some p =>
        rw [heq] at h
        simp only [Option.some.injEq, Prod.mk.injEq] at h
        have hc1 : (indexRefactor1 s pname B).1.countries.contains pname = true := by
          rw [indexRefactor1_countries]
          exact hc
        obtain ⟨hrem, hent⟩ := ih (btotal + B) (indexRefactor1 s pname B).1 p.1 p.2 hc1 heq
        obtain ⟨hcreated, hafter⟩ := indexRefactor1_counts (B := B) hc
        refine ⟨?_, ?_⟩
        · rw [← h.1, hrem, hafter, ← h.2, List.length_cons, Nat.succ_mul]
          omega
        · intro i hi
          rw [← h.2] at hi ⊢
          cases i with
          | zero =>
            simp only [List.getD_cons_zero, hcreated]
            omega
          | succ j =>
            simp only [List.getD_cons_succ]
            have hj : j < p.2.length := by
              simp only [List.length_cons] at hi
              omega
            rw [hent j hj, hafter, Nat.succ_mul]
            omega
    · rw [if_neg hlt] at h
      simp only [Option.some.injEq, Prod.mk.injEq] at h
      obtain ⟨hcreated, hafter⟩ := indexRefactor1_counts (B := B) hc
      refine ⟨?_, ?_⟩
      · rw [← h.1, hafter, ← h.2]
        simp
      · intro i hi
        rw [← h.2] at hi ⊢
        cases i with
        | zero =>
          simp only [List.getD_cons_zero, hcreated]
          omega
        | succ j =>
          simp only [List.length_cons, List.length_nil] at hi
          exact absurd hi (by omega)

lemma childProps1_keys (s : Store) :
    (childProps1 s).map Prod.fst =
      ((s.children.filter fun c => unlinked c).map fun c => c.country).dedup := by
  unfold childProps1
  rw [List.map_map]
  have hcomp : (Prod.fst ∘ fun p => (p, unlinkedCount s p)) = id := rfl
  rw [hcomp, List.map_id]

lemma unlinkedCount_pos_iff (s : Store) (p : String) :
    0 < unlinkedCount s p ↔ ∃ c ∈ s.children, unlinked c = true ∧ c.country = p := by
  unfold unlinkedCount cUnlinked
  rw [List.length_pos_iff_exists_mem]
  constructor
  · rintro ⟨c, hc⟩
    rw [List.mem_filter] at hc
    refine ⟨c, hc.1, ?_⟩
    have h2 := hc.2
    simp only [Bool.and_eq_true, beq_iff_eq] at h2
    exact h2
  · rintro ⟨c, hc, hu, hp⟩
    refine ⟨c, ?_⟩
    rw [List.mem_filter]
    exact ⟨hc, by simp [hu, hp]⟩

lemma mem_childProps1_keys_iff (s : Store) (p : String) :
    p ∈ (childProps1 s).map Prod.fst ↔ 0 < unlinkedCount s p := by
  rw [childProps1_keys, List.mem_dedup, List.mem_map, unlinkedCount_pos_iff]
  constructor
  · rintro ⟨c, hc, hp⟩
    rw [List.mem_filter] at hc
    exact ⟨c, hc.1, hc.2, hp⟩
  · rintro ⟨c, hc, hu, hp⟩
    exact ⟨c, List.mem_filter.mpr ⟨hc, hu⟩, hp⟩

lemma mem_childProps1 {s : Store} {p : String} {k : Nat}
    (h : (p, k) ∈ childProps1 s) : k = unlinkedCount s p ∧ 0 < k := by
  unfold childProps1 at h
  rw [List.mem_map] at h
  obtain ⟨q, hq, heq⟩ := h
  simp only [Prod.mk.injEq] at heq
  obtain ⟨h1, h2⟩ := heq
  subst h1
  refine ⟨h2.symm, ?_⟩
  rw [← h2]
  rw [← mem_childProps1_keys_iff, childProps1_keys]
  exact hq

lemma childProps1_keys_nodup (s : Store) : ((childProps1 s).map Prod.fst).Nodup := by
  rw [childProps1_keys]
  exact List.nodup_dedup _

lemma expectedBatches_mul_ge (N : Nat) {B : Nat} (hB : 0 < B) :
    N ≤ expectedBatches N B 0 * B := by
  unfold expectedBatches
  rw [Nat.sub_zero]
  rcases Nat.eq_zero_or_pos N with h0 | hpos
  · subst h0
    exact Nat.zero_le _
  · have hmax : max 1 ((N + B - 1) / B) = (N + B - 1) / B := by
      have h1 := (Nat.one_le_div_iff hB).mpr (by omega : B ≤ N + B - 1)
      omega
    rw [hmax, Nat.mul_comm]
    have h1 := Nat.div_add_mod (N + B - 1) B
    have h2 := Nat.mod_lt (N + B - 1) hB
    omega

/-- After running the per-category loop with the snapshot count, no
unlinked child of that category remains (when its Country node exists). -/
lemma runCategory_complete {s : Store} {p : String} {B : Nat} {s2 : Store}
    {tr : List Nat} (hB : 0 < B) (hc : s.countries.contains p = true)
    (h : runCategory s p (unlinkedCount s p) B = some (s2, tr)) :
    unlinkedCount s2 p = 0 := by
  obtain ⟨s2', tr', heq, hlen⟩ := runCategory_length s p (unlinkedCount s p) hB
  rw [h] at heq
  simp only [Option.some.injEq, Prod.mk.injEq] at heq
  obtain ⟨hrem, _⟩ := batchLoop_counts p (unlinkedCount s p) B (unlinkedCount s p + 1)
    0 s s2 tr hc h
  rw [hrem, heq.2, hlen]
  have hmul := expectedBatches_mul_ge (unlinkedCount s p) hB
  omega

lemma runCategory_frame {s : Store} {p q : String} {n B : Nat} {s2 : Store}
    {tr : List Nat} (hq : q ≠ p) (h : runCategory s p n B = some (s2, tr)) :
    unlinkedCount s2 q = unlinkedCount s q :=
  cUnlinked_eq_of_forall2 hq (runCategory_rel h).2

lemma runCategory_countries {s : Store} {p : String} {n B : Nat} {s2 : Store}
    {tr : List Nat} (h : runCategory s p n B = some (s2, tr)) :
    s2.countries = s.countries :=
  (runCategory_rel h).1

/-- Unlinked counts after the category loop has processed a list of
(category, snapshot count) rows: every processed category is fully linked,
every other category is untouched. -/
lemma runCategories_final {B : Nat} (hB : 0 < B) :
    ∀ (props : List (String × Nat)) (s s2 : Store) (k : Nat),
      runCategories B props s = some (s2, k) →
      (∀ pr ∈ props, pr.2 = unlinkedCount s pr.1 ∧ s.countries.contains pr.1 = true) →
      (props.map Prod.fst).Nodup →
      ∀ q, unlinkedCount s2 q =
        if q ∈ props.map Prod.fst then 0 else unlinkedCount s q := by
  intro props
  induction props with
  | nil =>
    intro s s2 k h _ _ q
    simp only [runCategories, Option.some.injEq, Prod.mk.injEq] at h
    rw [← h.1]
    simp
  | cons pr rest ih =>
    intro s s2 k h hprops hnodup q
    simp only [runCategories] at h
    cases heq : runCategory s pr.1 pr.2 B with
    | none => rw [heq] at h; simp at h
    | some r =>
      rw [heq] at h
      dsimp only at h
      cases heq2 : runCategories B rest r.1 with
      | none => rw [heq2] at h; simp at h
      | some r2 =>
        rw [heq2] at h
        simp only [Option.some.injEq, Prod.mk.injEq] at h
        obtain ⟨hn, hcont⟩ := hprops pr (List.mem_cons_self pr rest)
        have hr : runCategory s pr.1 pr.2 B = some (r.1, r.2) := by rw [heq]
        have hzero : unlinkedCount r.1 pr.1 = 0 := by
          rw [hn] at hr
          exact runCategory_complete hB hcont hr
        have hnotmem : pr.1 ∉ rest.map Prod.fst := by
          have := hnodup
          simp only [List.map_cons, List.nodup_cons] at this
          exact this.1
        have hrest : ∀ pr2 ∈ rest, pr2.2 = unlinkedCount r.1 pr2.1 ∧
            r.1.countries.contains pr2.1 = true := by
          intro pr2 hm
          obtain ⟨hn2, hc2⟩ := hprops pr2 (List.mem_cons_of_mem pr hm)
          have hne : pr2.1 ≠ pr.1 := by
            intro hcontra
            exact hnotmem (hcontra ▸ List.mem_map_of_mem Prod.fst hm)
          refine ⟨?_, ?_⟩
          · rw [hn2, runCategory_frame hne hr]
          · rw [runCategory_countries hr]
            exact hc2
        have hnodup2 : (rest.map Prod.fst).Nodup := by
          simp only [List.map_cons, List.nodup_cons] at hnodup
          exact hnodup.2
        have hfinal := ih r.1 r2.1 r2.2 (by rw [heq2]) hrest hnodup2 q
        rw [h.1] at hfinal
        rw [hfinal]
        by_cases hq : q = pr.1
        · subst hq
          rw [if_neg hnotmem, hzero,
            if_pos (by simp [List.map_cons] : pr.1 ∈ (pr :: rest).map Prod.fst)]
        · by_cases hmem : q ∈ rest.map Prod.fst
          · rw [if_pos hmem,
              if_pos (by simp [List.map_cons, List.mem_cons, hmem] :
                q ∈ (pr :: rest).map Prod.fst)]
          · rw [if_neg hmem, runCategory_frame hq hr,
              if_neg (by simp [List.map_cons, List.mem_cons, hq, hmem] :
                ¬ q ∈ (pr :: rest).map Prod.fst)]

/-- The precondition established by the extraction step
(`extract-parent.py`): a Country node exists for the category value of
every child. -/
def HasParents (s : Store) : Prop :=
  ∀ c ∈ s.children, s.countries.contains c.country = true

lemma runJob_all_linked {s : Store} {B : Nat} {s2 : Store} {k : Nat}
    (hB : 0 < B) (hp : HasParents s) (h : runJob s B = some (s2, k)) :
    ∀ q, unlinkedCount s2 q = 0 := by
  intro q
  have hprops : ∀ pr ∈ childProps1 s,
      pr.2 = unlinkedCount s pr.1 ∧ s.countries.contains pr.1 = true := by
    intro pr hm
    obtain ⟨p, n⟩ := pr
    obtain ⟨hn, hpos⟩ := mem_childProps1 hm
    refine ⟨hn, ?_⟩
    rw [hn] at hpos
    obtain ⟨c, hc, _, hcountry⟩ := (unlinkedCount_pos_iff s p).mp hpos
    rw [← hcountry]
    exact hp c hc
  have hfin := runCategories_final hB (childProps1 s) s s2 k h hprops
    (childProps1_keys_nodup s) q
  by_cases hmem : q ∈ (childProps1 s).map Prod.fst
  · rw [hfin, if_pos hmem]
  · rw [hfin, if_neg hmem]
    by_contra hne
    exact hmem ((mem_childProps1_keys_iff s q).mpr (by omega))

lemma childProps1_eq_nil_of_all_zero {s : Store}
    (h : ∀ q, unlinkedCount s q = 0) : childProps1 s = [] := by
  unfold childProps1
  have hf : s.children.filter (fun c => unlinked c) = [] := by
    rw [List.filter_eq_nil_iff]
    intro c hc hcu
    have hpos : 0 < unlinkedCount s c.country :=
      (unlinkedCount_pos_iff s c.country).mpr ⟨c, hc, hcu, rfl⟩
    rw [h c.country] at hpos
    exact absurd hpos (by omega)
  rw [hf]
  rfl

lemma runJob_of_nil_props {s : Store} {B : Nat} (h : childProps1 s = []) :
    runJob s B = some (s, 0) := by
  unfold runJob
  rw [h]
  rfl

/-- A store in which the France category is partially materialized:
`a` children already linked, `b` children still unlinked.  Every committed
state of the France scenario has this shape. -/
def repStore (a b : Nat) : Store :=
  Store.mk [france]
    (List.replicate a (Child.mk france [france]) ++ List.replicate b (Child.mk france []))

lemma linkChildren_cons_pos {p : String} {c : Child} {cs : List Child} {L : Nat}
    (h : 0 < L ∧ unlinked c = true ∧ c.country = p) :
    linkChildren p (c :: cs) L =
      (Child.mk c.country [p] :: (linkChildren p cs (L - 1)).1,
        (linkChildren p cs (L - 1)).2 + 1) := by
  simp only [linkChildren, if_pos h]

lemma linkChildren_cons_neg {p : String} {c : Child} {cs : List Child} {L : Nat}
    (h : ¬(0 < L ∧ unlinked c = true ∧ c.country = p)) :
    linkChildren p (c :: cs) L =
      (c :: (linkChildren p cs L).1, (linkChildren p cs L).2) := by
  simp only [linkChildren, if_neg h]

lemma linkChildren_skip_linked (p : String) :
    ∀ (a : Nat) (rest : List Child) (L : Nat),
      linkChildren p (List.replicate a (Child.mk p [p]) ++ rest) L =
        (List.replicate a (Child.mk p [p]) ++ (linkChildren p rest L).1,
          (linkChildren p rest L).2) := by
  intro a
  induction a with
  | zero => intro rest L; simp
  | succ n ih =>
    intro rest L
    have hcond : ¬(0 < L ∧ unlinked (Child.mk p [p]) = true ∧
        (Child.mk p [p]).country = p) := by
      simp [unlinked]
    rw [List.replicate_succ, List.cons_append, linkChildren_cons_neg hcond, ih rest L]
    dsimp only
    rw [List.cons_append]

lemma linkChildren_rep_unlinked (p : String) :
    ∀ (b L : Nat),
      linkChildren p (List.replicate b (Child.mk p [])) L =
        (List.replicate (min L b) (Child.mk p [p]) ++
          List.replicate (b - L) (Child.mk p []), min L b) := by
  intro b
  induction b with
  | zero => intro L; simp [linkChildren]
  | succ n ih =>
    intro L
    rw [List.replicate_succ]
    by_cases hL : 0 < L
    · have hcond : 0 < L ∧ unlinked (Child.mk p []) = true ∧
          (Child.mk p []).country = p := by
        refine ⟨hL, ?_, rfl⟩
        simp [unlinked]
      rw [linkChildren_cons_pos hcond, ih (L - 1)]
      have h1 : min L (n + 1) = min (L - 1) n + 1 := by omega
      have h2 : n + 1 - L = n - (L - 1) := by omega
      rw [h1, h2, List.replicate_succ, List.cons_append]
    · have hL0 : L = 0 := by omega
      subst hL0
      have hcond : ¬(0 < 0 ∧ unlinked (Child.mk p []) = true ∧
          (Child.mk p []).country = p) := by simp
      rw [linkChildren_cons_neg hcond, ih 0]
      simp [List.replicate_succ]

lemma indexRefactor1_repStore (a b L : Nat) :
    indexRefactor1 (repStore a b) france L = (repStore (a + min L b) (b - L), min L b) := by
  unfold indexRefactor1 repStore
  rw [if_pos (by simp : ([france] : List String).contains france = true)]
  dsimp only
  rw [linkChildren_skip_linked, linkChildren_rep_unlinked]
  rw [← List.append_assoc, ← List.replicate_add]

lemma unlinkedCount_repStore (a b : Nat) : unlinkedCount (repStore a b) france = b := by
  unfold unlinkedCount cUnlinked repStore
  dsimp only
  rw [List.filter_append, List.filter_replicate, List.filter_replicate]
  have h1 : (unlinked (Child.mk france [france]) &&
      (Child.mk france [france]).country == france) = false := by
    simp [unlinked]
  have h2 : (unlinked (Child.mk france []) &&
      (Child.mk france []).country == france) = true := by
    simp [unlinked]
  rw [h1, h2]
  simp

lemma edgeCount_repStore (a b : Nat) : edgeCount (repStore a b) france = a := by
  unfold edgeCount repStore
  dsimp only
  rw [List.filter_append, List.filter_replicate, List.filter_replicate]
  have h1 : (Child.mk france [france]).hasLoc.contains france = true := by
    simp
  have h2 : (Child.mk france []).hasLoc.contains france = false := by
    simp
  rw [h1, h2]
  simp

lemma childProps1_repStore (a b : Nat) (hb : b ≠ 0) :
    childProps1 (repStore a b) = [(france, b)] := by
  have hcount := unlinkedCount_repStore a b
  unfold childProps1
  rw [show (repStore a b).children =
      List.replicate a (Child.mk france [france]) ++ List.replicate b (Child.mk france [])
      from rfl]
  rw [List.filter_append, List.filter_replicate, List.filter_replicate]
  have h1 : unlinked (Child.mk france [france]) = false := by simp [unlinked]
  have h2 : unlinked (Child.mk france []) = true := by simp [unlinked]
  rw [h1, h2]
  simp only [Bool.false_eq_true, if_false, if_true, List.nil_append]
  rw [List.map_replicate]
  rw [List.replicate_dedup hb]
  rw [List.map_singleton, hcount]

/-- Edge preservation between two stores: same children in the same order,
each keeping its category attribute, and every `HAS_LOCATION` edge of the
first store still present in the second. -/
def EdgesKept (s1 s2 : Store) : Prop :=
  List.Forall₂ (fun c1 c2 => c1.country = c2.country ∧ ∀ e ∈ c1.hasLoc, e ∈ c2.hasLoc)
    s1.children s2.children

lemma jobStoreRel_edgesKept {s1 s2 : Store} (h : JobStoreRel s1 s2) :
    EdgesKept s1 s2 := by
  refine h.2.imp (fun c1 c2 hr => ⟨hr.1.symm, ?_⟩)
  intro e he
  rcases hr.2.2 with heq | ⟨hl, _⟩
  · rw [heq]
    exact he
  · rw [hl] at he
    exact absurd he (List.not_mem_nil e)

lemma storeRel_edgesKept {pname : String} {s1 s2 : Store}
    (h : StoreRel pname s1 s2) : EdgesKept s1 s2 :=
  jobStoreRel_edgesKept h.toJobStoreRel

lemma atMostOne_repStore (a b : Nat) : AtMostOne (repStore a b) := by
  intro c hc
  unfold repStore at hc
  dsimp only at hc
  rcases List.mem_append.mp hc with h | h
  · rw [List.eq_of_mem_replicate h]
    simp
  · rw [List.eq_of_mem_replicate h]
    simp

lemma batchLoop_succ (pname : String) (ncount B fuel : Nat) (s : Store) (btotal : Nat) :
    batchLoop pname ncount B (fuel + 1) s btotal =
      if btotal + B < ncount then
        match batchLoop pname ncount B fuel (indexRefactor1 s pname B).1 (btotal + B) with
        | some p2 => some (p2.1, (indexRefactor1 s pname B).2 :: p2.2)
        | none => none
      else some ((indexRefactor1 s pname B).1, [(indexRefactor1 s pname B).2]) := by
  simp only [batchLoop]

lemma lt_of_lt_ceil {i N B : Nat} (hB : 0 < B) (hi : i < (N + B - 1) / B) :
    i * B < N := by
  have h1 := (Nat.le_div_iff_mul_le hB).mp (by omega : i + 1 ≤ (N + B - 1) / B)
  have h2 : (i + 1) * B = i * B + B := by ring
  omega

/-- The France scenario of the specification: 4500 unlinked children. -/
def franceStore : Store := repStore 0 4500

/-- The committed state after the first two batches of size 2000 have
committed and the job is then interrupted. -/
def franceAfterTwo : Store :=
  (indexRefactor1 (indexRefactor1 franceStore france 2000).1 france 2000).1

lemma franceAfterTwo_eq : franceAfterTwo = repStore 4000 500 := by
  unfold franceAfterTwo franceStore
  rw [indexRefactor1_repStore]
  have h1 : (0 + min 2000 4500, 4500 - 2000) = (2000, 2500) := by norm_num
  rw [show (0 + min 2000 4500 : Nat) = 2000 by norm_num,
    show (4500 - 2000 : Nat) = 2500 by norm_num]
  dsimp only
  rw [indexRefactor1_repStore]
  rw [show (2000 + min 2000 2500 : Nat) = 4000 by norm_num,
    show (2500 - 2000 : Nat) = 500 by norm_num]

lemma runCategory_franceRestart :
    runCategory (repStore 4000 500) france 500 2000 = some (repStore 4500 0, [500]) := by
  unfold runCategory
  rw [batchLoop_succ]
  rw [if_neg (by norm_num : ¬ (0 + 2000 < 500))]
  rw [indexRefactor1_repStore]
  rw [show (4000 + min 2000 500 : Nat) = 4500 by norm_num,
    show (500 - 2000 : Nat) = 0 by norm_num,
    show (min 2000 500 : Nat) = 500 by norm_num]

lemma runJob_franceRestart :
    runJob franceAfterTwo 2000 = some (repStore 4500 0, 1) := by
  rw [show runJob franceAfterTwo 2000 =
      runCategories 2000 (childProps1 franceAfterTwo) franceAfterTwo from rfl]
  rw [franceAfterTwo_eq, childProps1_repStore 4000 500 (by norm_num)]
  show runCategories 2000 [(france, 500)] (repStore 4000 500) = some (repStore 4500 0, 1)
  unfold runCategories
  rw [show ((france, 500) : String × Nat).1 = france from rfl,
    show ((france, 500) : String × Nat).2 = 500 from rfl]
  rw [runCategory_franceRestart]
  rfl

instance : DecidablePred HasParents := fun s =>
  show Decidable (∀ c ∈ s.children, s.countries.contains c.country = true) from inferInstance

/-- A store with two categories, both with one unlinked child each. -/
def twoCatStore : Store :=
  Store.mk [france, japan] [Child.mk france [], Child.mk japan []]

/-- Failure schedule: the first bounded mutation of the first category
raises a CypherError. -/
def failFirst : Nat → Nat → Bool := fun ci _ => ci == 0

/-- A store with one unlinked child whose Country node is missing. -/
def orphanStore : Store := Store.mk [] [Child.mk france []]

/-- Claim C1 (counterexample).  On a category with 3 unlinked children and
batch size 2, the loop stops after the second batch even though that batch
created 1 edge, not 0: the created-edge counter is not the signal that
ends the loop. -/
theorem c1_counterexample :
    (runCategory (repStore 0 3) france 3 2).map (fun r => r.2.getLast?) =
      some (some 1) ∧ some (1 : Nat) ≠ some 0 := by
  exact ⟨by decide, by decide⟩

/-- Claim C1 (amended).  The per-category loop always terminates after
exactly `max 1 ⌈ncount / batchSize⌉` invocations, whatever the store
contents and hence whatever any MutationResult reports: the loop stops
exactly when the accumulated batch-size estimate reaches the snapshot
count. -/
theorem c1_amended_estimate_termination (s : Store) (pname : String)
    (ncount B : Nat) (hB : 0 < B) :
    ∃ s2 tr, runCategory s pname ncount B = some (s2, tr) ∧
      tr.length = expectedBatches ncount B 0 ∧ ncount ≤ tr.length * B := by
  obtain ⟨s2, tr, heq, hlen⟩ := runCategory_length s pname ncount hB
  refine ⟨s2, tr, heq, hlen, ?_⟩
  rw [hlen]
  exact expectedBatches_mul_ge ncount hB

/-- Witness for the amended claim C1 at a concrete input. -/
theorem c1_witness :
    ∃ s2 tr, runCategory (repStore 0 3) france 3 2 = some (s2, tr) ∧
      tr.length = expectedBatches 3 2 0 ∧ 3 ≤ tr.length * 2 :=
  c1_amended_estimate_termination (repStore 0 3) france 3 2 (by decide)

/-- Claim C2 (counterexample).  For N = 3 unlinked children and B = 2 the
loop performs 2 invocations, not ceil(3/2) + 1 = 3, and no invocation
creates 0 edges. -/
theorem c2_counterexample :
    (runCategory (repStore 0 3) france 3 2).map (fun r => r.2.length) = some 2 ∧
    (2 : Nat) ≠ (3 + 2 - 1) / 2 + 1 := by
  exact ⟨by decide, by decide⟩

/-- Claim C2 (amended).  For a category with exactly N > 0 unlinked
children and batch size B > 0 (Country node present), the loop performs
exactly ceil(N/B) invocations, the i-th creating min(B, N - iB) edges —
every invocation is productive and there is no final zero-edge
invocation — and afterwards no unlinked child of the category remains. -/
theorem c2_amended_exact_batches (s : Store) (p : String) (n B : Nat)
    (hn : 0 < n) (hB : 0 < B) (hc : s.countries.contains p = true)
    (hcount : unlinkedCount s p = n) :
    ∃ s2 tr, runCategory s p n B = some (s2, tr) ∧
      tr.length = (n + B - 1) / B ∧
      (∀ i, i < tr.length → tr.getD i 0 = min B (n - i * B)) ∧
      (∀ i, i < tr.length → 0 < tr.getD i 0) ∧
      unlinkedCount s2 p = 0 := by
  obtain ⟨s2, tr, heq, hlen⟩ := runCategory_length s p n hB
  have heqb : batchLoop p n B (n + 1) s 0 = some (s2, tr) := heq
  obtain ⟨hrem, hent⟩ := batchLoop_counts p n B (n + 1) 0 s s2 tr hc heqb
  have hceil : expectedBatches n B 0 = (n + B - 1) / B :=
    expectedBatches_zero_btotal hn hB
  rw [hceil] at hlen
  refine ⟨s2, tr, heq, hlen, ?_, ?_, ?_⟩
  · intro i hi
    rw [hent i hi, hcount]
  · intro i hi
    rw [hent i hi, hcount]
    have hlt : i * B < n := lt_of_lt_ceil hB (by rw [← hlen]; exact hi)
    omega
  · rw [hrem, hcount, hlen]
    have hge := expectedBatches_mul_ge n hB
    rw [hceil] at hge
    omega

/-- Witness for the amended claim C2 at a concrete input. -/
theorem c2_witness :
    ∃ s2 tr, runCategory (repStore 0 3) france 3 2 = some (s2, tr) ∧
      tr.length = (3 + 2 - 1) / 2 ∧
      (∀ i, i < tr.length → tr.getD i 0 = min 2 (3 - i * 2)) ∧
      (∀ i, i < tr.length → 0 < tr.getD i 0) ∧
      unlinkedCount s2 france = 0 :=
  c2_amended_exact_batches (repStore 0 3) france 3 2 (by decide) (by decide)
    (by decide) (by decide)

/-- Claim C3.  The bounded mutation has create-if-absent semantics: it
never touches a child that already holds an edge, it preserves the
at-most-one-edge invariant, and the invariant is preserved by whole runs,
both completed and interrupted (any failure schedule). -/
theorem c3_no_duplicates :
    (∀ (s : Store) (p : String) (L : Nat),
      AtMostOne s → AtMostOne (indexRefactor1 s p L).1) ∧
    (∀ (s : Store) (p : String) (L : Nat),
      List.Forall₂ (fun c1 c2 => c1.hasLoc ≠ [] → c2 = c1)
        s.children ((indexRefactor1 s p L).1).children) ∧
    (∀ (s s2 : Store) (B k : Nat),
      AtMostOne s → runJob s B = some (s2, k) → AtMostOne s2) ∧
    (∀ (fail : Nat → Nat → Bool) (s : Store) (B : Nat) (r : Except Store Store),
      AtMostOne s → runJobF fail s B = some r → AtMostOne (storeOfE r)) := by
  refine ⟨?_, ?_, ?_, ?_⟩
  · intro s p L h
    exact (indexRefactor1_rel s p L).toJobStoreRel.atMostOne h
  · intro s p L
    exact (indexRefactor1_rel s p L).2.imp (fun c1 c2 hr => hr.2.1)
  · intro s s2 B k h hrun
    exact (runJob_rel hrun).atMostOne h
  · intro fail s B r h hrun
    exact (runJobF_rel hrun).atMostOne h

/-- Witness for claim C3 at a concrete input. -/
theorem c3_witness : AtMostOne ((indexRefactor1 (repStore 0 3) france 2).1) :=
  c3_no_duplicates.1 (repStore 0 3) france 2 (by decide)

/-- Claim C4 (counterexample).  From an initial store whose single France
child has no matching Country node, the first run ends with the store
unchanged and the second run still issues 1 bounded mutation, not 0: the
claim fails for arbitrary initial store states. -/
theorem c4_counterexample :
    runJob orphanStore 1 = some (orphanStore, 1) ∧ (1 : Nat) ≠ 0 := by
  exact ⟨by decide, by decide⟩

/-- Claim C4 (amended).  Under the documented precondition that every
child category value has its Country node, a completed run leaves the
category counter empty, and a second run returns the same store and issues
zero bounded mutations. -/
theorem c4_amended_idempotent (s : Store) (B : Nat) (s1 : Store) (k : Nat)
    (hB : 0 < B) (hp : HasParents s) (h : runJob s B = some (s1, k)) :
    childProps1 s1 = [] ∧ runJob s1 B = some (s1, 0) := by
  have hall := runJob_all_linked hB hp h
  have hnil := childProps1_eq_nil_of_all_zero hall
  exact ⟨hnil, runJob_of_nil_props hnil⟩

/-- Witness for the amended claim C4 at a concrete input. -/
theorem c4_witness :
    childProps1 (repStore 3 0) = [] ∧ runJob (repStore 3 0) 2 = some (repStore 3 0, 0) :=
  c4_amended_idempotent (repStore 0 3) 2 (repStore 3 0) 2 (by decide) (by decide)
    (by decide)

/-- Claim C5 (counterexample).  After two committed batches of 2000 on the
4500-child France category, the counter reports 500 unlinked children,
not 2500, and the restarted job reaches the end of the category after 1
invocation, not 3. -/
theorem c5_counterexample :
    childProps1 franceAfterTwo = [(france, 500)] ∧ (500 : Nat) ≠ 2500 ∧
    runJob franceAfterTwo 2000 = some (repStore 4500 0, 1) ∧ (1 : Nat) ≠ 3 := by
  refine ⟨?_, by norm_num, runJob_franceRestart, by norm_num⟩
  rw [franceAfterTwo_eq]
  exact childProps1_repStore 4000 500 (by norm_num)

/-- Claim C5 (amended).  Interrupting the France scenario after two
committed batches leaves 4000 edges; on restart the counter reports the
category with unlinked count 500, the materializer finishes it in
ceil(500/2000) = 1 invocation, and the final state has 4500 France edges,
no unlinked child and no duplicate edge. -/
theorem c5_amended_restart :
    edgeCount franceAfterTwo france = 4000 ∧
    childProps1 franceAfterTwo = [(france, 500)] ∧
    runJob franceAfterTwo 2000 = some (repStore 4500 0, 1) ∧
    edgeCount (repStore 4500 0) france = 4500 ∧
    unlinkedCount (repStore 4500 0) france = 0 ∧
    AtMostOne (repStore 4500 0) := by
  refine ⟨?_, ?_, runJob_franceRestart, edgeCount_repStore 4500 0,
    unlinkedCount_repStore 4500 0, atMostOne_repStore 4500 0⟩
  · rw [franceAfterTwo_eq]
    exact edgeCount_repStore 4000 500
  · rw [franceAfterTwo_eq]
    exact childProps1_repStore 4000 500 (by norm_num)

/-- Claim C6.  The category counter returns only strictly positive counts,
a category value appears in its output exactly when it has at least one
unlinked child, and a fully linked category is absent from the output (the
materializer loop iterates over exactly that output, so an absent category
is never visited). -/
theorem c6_counter_positive (s : Store) (p : String) (k : Nat) :
    ((p, k) ∈ childProps1 s → 0 < k ∧ k = unlinkedCount s p) ∧
    (p ∈ (childProps1 s).map Prod.fst ↔ 0 < unlinkedCount s p) ∧
    (unlinkedCount s p = 0 → p ∉ (childProps1 s).map Prod.fst) := by
  refine ⟨?_, mem_childProps1_keys_iff s p, ?_⟩
  · intro h
    obtain ⟨hk, hpos⟩ := mem_childProps1 h
    exact ⟨hpos, hk⟩
  · intro h0 hmem
    have := (mem_childProps1_keys_iff s p).mp hmem
    omega

/-- Witness for claim C6 at a concrete input. -/
theorem c6_witness : 0 < 3 ∧ (3 : Nat) = unlinkedCount (repStore 0 3) france :=
  (c6_counter_positive (repStore 0 3) france 3).1 (by decide)

/-- Claim C7.  One bounded mutation for category A, and the whole
materialization loop for A, leave every child of a different category
untouched (and never change any child category attribute). -/
theorem c7_category_isolation :
    (∀ (s : Store) (a : String) (L : Nat),
      List.Forall₂ (fun c1 c2 => c1.country = c2.country ∧ (c1.country ≠ a → c2 = c1))
        s.children ((indexRefactor1 s a L).1).children) ∧
    (∀ (s : Store) (a : String) (ncount B : Nat) (s2 : Store) (tr : List Nat),
      runCategory s a ncount B = some (s2, tr) →
      List.Forall₂ (fun c1 c2 => c1.country = c2.country ∧ (c1.country ≠ a → c2 = c1))
        s.children s2.children) := by
  constructor
  · intro s a L
    exact (indexRefactor1_rel s a L).2.imp (fun c1 c2 hr => ⟨hr.1.symm, hr.2.2.1⟩)
  · intro s a ncount B s2 tr h
    exact (runCategory_rel h).2.imp (fun c1 c2 hr => ⟨hr.1.symm, hr.2.2.1⟩)

/-- Witness for claim C7 at a concrete input. -/
theorem c7_witness :
    List.Forall₂ (fun c1 c2 => c1.country = c2.country ∧ (c1.country ≠ france → c2 = c1))
      twoCatStore.children
      ((indexRefactor1 twoCatStore france 1).1).children :=
  c7_category_isolation.1 twoCatStore france 1

/-- Claim C8.  A bounded mutation never removes an edge, any (possibly
failing) run keeps every edge of its starting state — so edges committed
by batches before a failure survive it — and a failing batch returns the
committed store exactly as it was: no rollback is performed for a
CypherError. -/
theorem c8_no_rollback :
    (∀ (s : Store) (p : String) (L : Nat), EdgesKept s (indexRefactor1 s p L).1) ∧
    (∀ (fail : Nat → Bool) (p : String) (n B fuel : Nat) (s : Store) (bt i : Nat)
      (r : Except Store Store),
      batchLoopF fail p n B fuel s bt i = some r → EdgesKept s (storeOfE r)) ∧
    (∀ (fail : Nat → Nat → Bool) (B : Nat) (props : List (String × Nat)) (s : Store)
      (ci : Nat) (r : Except Store Store),
      runCategoriesF fail B props s ci = some r → EdgesKept s (storeOfE r)) ∧
    (∀ (fail : Nat → Bool) (p : String) (n B fuel : Nat) (s : Store) (bt i : Nat),
      fail i = true → batchLoopF fail p n B (fuel + 1) s bt i = some (Except.error s)) := by
  refine ⟨?_, ?_, ?_, ?_⟩
  · intro s p L
    exact storeRel_edgesKept (indexRefactor1_rel s p L)
  · intro fail p n B fuel s bt i r h
    exact storeRel_edgesKept (batchLoopF_rel fail p n B fuel bt i s r h)
  · intro fail B props s ci r h
    exact jobStoreRel_edgesKept (runCategoriesF_rel fail B props s ci r h)
  · intro fail p n B fuel s bt i hf
    simp only [batchLoopF, if_pos hf]

/-- Witness for claim C8 at a concrete input. -/
theorem c8_witness :
    EdgesKept (repStore 0 3) (storeOfE (Except.error (repStore 0 3))) :=
  c8_no_rollback.2.1 (fun _ => true) france 3 2 1 (repStore 0 3) 0 0
    (Except.error (repStore 0 3)) (by rfl)

/-- Claim C9 (counterexample).  With two categories each holding one
unlinked child and a CypherError on the very first mutation, the whole job
ends in the error state: the Japan category is in the counter output but is
never processed, its child still unlinked — the job does not continue to
remaining categories. -/
theorem c9_counterexample :
    runJobF failFirst twoCatStore 1 = some (Except.error twoCatStore) ∧
    japan ∈ (childProps1 twoCatStore).map Prod.fst ∧
    unlinkedCount twoCatStore japan = 1 := by
  refine ⟨rfl, by decide, by decide⟩

/-- Claim C9 (amended).  A query-execution error in any category aborts
the entire job: the exception leaves the single try/except that wraps the
whole category loop, the committed store is returned unchanged and no
remaining category is processed. -/
theorem c9_amended_abort_job (fail : Nat → Nat → Bool) (B : Nat) (p : String)
    (n : Nat) (rest : List (String × Nat)) (s : Store) (ci : Nat)
    (hf : fail ci 0 = true) :
    runCategoriesF fail B ((p, n) :: rest) s ci = some (Except.error s) := by
  have hbl : batchLoopF (fail ci) p n B (n + 1) s 0 0 = some (Except.error s) := by
    simp only [batchLoopF, if_pos hf]
  simp only [runCategoriesF]
  rw [hbl]

/-- Witness for the amended claim C9 at a concrete input. -/
theorem c9_witness :
    runCategoriesF failFirst 1 [(france, 1)] twoCatStore 0 =
      some (Except.error twoCatStore) :=
  c9_amended_abort_job failFirst 1 france 1 [] twoCatStore 0 (by decide)

/-- Claim C10.  For every category pair with positive snapshot count and
positive batch size, the loop terminates after exactly
ceil(ncount / batchSize) invocations for every store whatsoever — the
mutation counters are never read for loop control. -/
theorem c10_fixed_invocations (s : Store) (pname : String) (ncount B : Nat)
    (hn : 0 < ncount) (hB : 0 < B) :
    ∃ s2 tr, runCategory s pname ncount B = some (s2, tr) ∧
      tr.length = (ncount + B - 1) / B := by
  obtain ⟨s2, tr, heq, hlen⟩ := runCategory_length s pname ncount hB
  rw [expectedBatches_zero_btotal hn hB] at hlen
  exact ⟨s2, tr, heq, hlen⟩

/-- Witness for claim C10 at a concrete input. -/
theorem c10_witness :
    ∃ s2 tr, runCategory (repStore 0 3) france 3 2 = some (s2, tr) ∧
      tr.length = (3 + 2 - 1) / 2 :=
  c10_fixed_invocations (repStore 0 3) france 3 2 (by decide) (by decide)
